import Mathlib

/-
Verification of pwn/crypto/monoalphabetic.py: monoalphabetic substitution
ciphers and the frequency-analysis crackers built on them.

Modelling conventions.  Python dictionaries are association lists with
distinct keys, built by insertion with overwrite semantics (a repeated key
keeps its original position and gets the new value), matching CPython
dict-comprehension behaviour.  Texts are lists of characters, frequency
distributions are lists of rationals.  A Python function whose body can
raise is Except-valued; one whose body always returns is a plain function.
-/

namespace Mono

/-- Error kinds of section 7 of the spec, identified with the Python
exceptions the source can actually raise: ValueError is what min raises on
an empty sequence, StopIteration is what a .next() call raises on an
exhausted generator (the KeyNotFound-style failure of the spec).
Unsupported and InvalidKey occur in the spec only; the source never
raises them. -/
inductive PyError where
  | ValueError
  | StopIteration
  | Unsupported
  | InvalidKey
  deriving DecidableEq

/-- Keys of a Python dict modelled as an association list. -/
def dkeys (d : List (Char × Char)) : List Char := d.map Prod.fst

/-- Lookup of dictionary[c]: the value of the first (by the dict invariant,
the only) entry whose key is c. -/
def dlookup (d : List (Char × Char)) (c : Char) : Option Char :=
  (d.find? (fun p => p.1 == c)).map Prod.snd

/-- Insertion of one key-value pair into a dict, with CPython overwrite
semantics: an existing key keeps its position and gets the new value, a
fresh key is appended at the end. -/
def dinsert (d : List (Char × Char)) (kv : Char × Char) : List (Char × Char) :=
  if (dkeys d).contains kv.1 then
    d.map (fun p => if p.1 == kv.1 then (p.1, kv.2) else p)
  else d ++ [kv]

/-- A Python dict built from a sequence of key-value pairs, the way a dict
comprehension builds one: pairs are inserted in iteration order, later
pairs overwriting earlier ones with the same key. -/
def dictOfPairs (l : List (Char × Char)) : List (Char × Char) :=
  l.foldl dinsert []

/-- Embedding of encrypt_substitution (monoalphabetic.py lines 18-30): each
symbol of the plaintext that is a key of the dictionary is replaced by its
value, every other symbol is emitted unchanged. -/
def encrypt_substitution (plaintext : List Char) (dictionary : List (Char × Char)) :
    List Char :=
  plaintext.map (fun c =>
    if (dkeys dictionary).contains c then (dlookup dictionary c).getD c else c)

/-- Embedding of decrypt_substitution (lines 32-45): invert the dict (a
Python dict comprehension over the swapped pairs, so colliding values are
resolved by last-writer-wins) and re-encrypt with the inverse. -/
def decrypt_substitution (ciphertext : List Char) (dictionary : List (Char × Char)) :
    List Char :=
  encrypt_substitution ciphertext (dictOfPairs (dictionary.map (fun p => (p.2, p.1))))

/-- Embedding of crack_substitution (lines 47-49): the body is a bare pass
plus a TODO docstring, so every call returns Python's None and raises
nothing. -/
def crack_substitution (ciphertext : List Char) (frequencies : List ℚ) :
    Except PyError (Option (List (Char × Char) × List Char)) :=
  .ok none

/-- The default alphabet string.uppercase used by the source. -/
def string_uppercase : List Char :=
  ['A', 'B', 'C', 'D', 'E', 'F', 'G', 'H', 'I', 'J', 'K', 'L', 'M',
   'N', 'O', 'P', 'Q', 'R', 'S', 'T', 'U', 'V', 'W', 'X', 'Y', 'Z']

/-- Modelled from the spec: the external Frequency Oracle freq.text (the
freq module is not under src/).  Per sections 2 and 6 it returns, for each
alphabet symbol in order, its relative frequency among the symbols of the
text that lie in the alphabet, and the all-zero distribution when the text
contains no alphabet symbol. -/
def freq_text (text : List Char) (alphabet : List Char) : List ℚ :=
  let total := (text.filter (fun c => alphabet.contains c)).length
  alphabet.map (fun a => if total = 0 then 0 else (text.count a : ℚ) / (total : ℚ))

/-- Modelled from the spec: the external Distance Scorer
util.squared_differences (the util module is not under src/).  Per the
glossary it is the sum over positions of the squared difference of two
equal-length distributions; it is applied in this development only to
distributions of equal provenance, so the LengthMismatch failure of
section 6 is modelled away by pairing positions with zip. -/
def squared_differences (a b : List ℚ) : ℚ :=
  ((a.zip b).map (fun p => (p.1 - p.2) * (p.1 - p.2))).sum

/-- The distance generic_crack (lines 52-55) assigns to one candidate:
re-encrypt the ciphertext with the candidate, take the frequency
distribution of the trial text over the alphabet, and score it against the
target distribution. -/
def trial_distance (ciphertext : List Char) (frequencies : List ℚ) (alphabet : List Char)
    (candidate : List (Char × Char)) : ℚ :=
  squared_differences (freq_text (encrypt_substitution ciphertext candidate) alphabet)
    frequencies

/-- Embedding of generic_crack (lines 51-58).  Python's min raises
ValueError on an empty sequence, hence the Except; distances.index picks
the first index attaining the minimum; the getD default for
candidates[guess] is never consulted because guess is the index of a
member of distances, a list of the same length. -/
def generic_crack (ciphertext : List Char) (candidates : List (List (Char × Char)))
    (frequencies : List ℚ) (alphabet : List Char) :
    Except PyError (List (Char × Char) × List Char) :=
  let distances := candidates.map (trial_distance ciphertext frequencies alphabet)
  match distances.min? with
  | none => .error .ValueError
  | some m =>
    let guess := distances.indexOf m
    .ok (candidates.getD guess [], encrypt_substitution ciphertext (candidates.getD guess []))

/-- Embedding of affine_dict (lines 117-131): the mapping
alphabet[i] ↦ alphabet[(a * i + b) mod n], assembled exactly as the dict
comprehension of line 131 does.  The body performs no invertibility check
on a.  The getD defaults are never consulted: i ranges below n, and as
soon as range n is non-empty, (a * i + b) % n < n. -/
def affine_dict (key : ℕ × ℕ) (alphabet : List Char) : List (Char × Char) :=
  let n := alphabet.length
  dictOfPairs ((List.range n).map
    (fun i => (alphabet.getD i ' ', alphabet.getD ((key.1 * i + key.2) % n) ' ')))

/-- Embedding of shift_dict (lines 104-115): a shift is the affine mapping
with a = 1. -/
def shift_dict (shift : ℕ) (alphabet : List Char) : List (Char × Char) :=
  affine_dict (1, shift) alphabet

/-- Embedding of atbash_dict (lines 133-144): the affine mapping with
a = b = n - 1.  On the empty alphabet Python forms the key (-1, -1) where
Nat subtraction gives (0, 0); both yield the empty dict because range 0 is
empty, so the truncation is harmless. -/
def atbash_dict (alphabet : List Char) : List (Char × Char) :=
  affine_dict (alphabet.length - 1, alphabet.length - 1) alphabet

/-- The candidate list built by crack_shift (line 73): one shift mapping
per shift value in [0, n). -/
def shift_candidates (alphabet : List Char) : List (List (Char × Char)) :=
  (List.range alphabet.length).map (fun i => shift_dict i alphabet)

/-- Embedding of crack_shift (lines 60-76).  The generator expression of
line 75 searches the winning dict, in insertion order, for the first key
whose value equals alphabet[0], and its .next() raises StopIteration when
no entry matches.  The getD default for alphabet[0] is never consulted in
the ok branch, which forces the candidate list, hence the alphabet, to be
non-empty; alphabet.index of the found key is total here because every
key of every candidate is an alphabet symbol. -/
def crack_shift (ciphertext : List Char) (alphabet : List Char) (frequencies : List ℚ) :
    Except PyError (ℕ × List Char) :=
  match generic_crack ciphertext (shift_candidates alphabet) frequencies alphabet with
  | .error e => .error e
  | .ok (dictionary, plaintext) =>
    match dictionary.find? (fun p => p.2 == alphabet.getD 0 ' ') with
    | none => .error .StopIteration
    | some p => .ok (alphabet.indexOf p.1, plaintext)

/-- The candidate list built by crack_affine (lines 92-95).  Note what the
source does: n, the invertible residues and the (a, b) pairs are derived
from the alphabet argument, but line 95 calls affine_dict(k) without
passing that alphabet along, so every candidate mapping is built over the
DEFAULT alphabet string.uppercase. -/
def affine_candidates (alphabet : List Char) : List (List (Char × Char)) :=
  let n := alphabet.length
  let invertible := (List.range n).filter (fun i => Nat.gcd i n == 1)
  let keyPairs := invertible.flatMap (fun a => (List.range n).map (fun b => (a, b)))
  keyPairs.map (fun k => affine_dict k string_uppercase)

/-- Embedding of crack_affine (lines 78-96): line 96 calls generic_crack
without passing the alphabet either, so scoring likewise happens over
string.uppercase, and the full (mapping, text) pair produced by
generic_crack is returned as is. -/
def crack_affine (ciphertext : List Char) (alphabet : List Char) (frequencies : List ℚ) :
    Except PyError (List (Char × Char) × List Char) :=
  generic_crack ciphertext (affine_candidates alphabet) frequencies string_uppercase

/-- Follows the spec wording for claim C2 (section 4.2), to be compared
with affine_candidates: the Affine key-space over an alphabet A of length
n, one mapping per pair (a, b) with gcd(a, n) = 1 and b in [0, n), every
mapping built over A itself. -/
def affine_keyspace_spec (alphabet : List Char) : List (List (Char × Char)) :=
  let n := alphabet.length
  ((List.range n).filter (fun a => Nat.gcd a n == 1)).flatMap
    (fun a => (List.range n).map (fun b => affine_dict (a, b) alphabet))

/-- The per-symbol substitution function that encrypt_substitution applies
to every position of the text. -/
def esub (d : List (Char × Char)) (c : Char) : Char :=
  if (dkeys d).contains c then (dlookup d c).getD c else c

lemma encrypt_eq_map (t : List Char) (d : List (Char × Char)) :
    encrypt_substitution t d = t.map (esub d) := rfl

lemma contains_iff_mem (l : List Char) (a : Char) : l.contains a = true ↔ a ∈ l :=
  List.elem_iff

lemma dinsert_of_not_mem {acc : List (Char × Char)} {kv : Char × Char}
    (h : kv.1 ∉ dkeys acc) : dinsert acc kv = acc ++ [kv] := by
  unfold dinsert
  rw [if_neg]
  intro hc
  exact h ((contains_iff_mem _ _).mp hc)

lemma foldl_dinsert_of_nodup :
    ∀ (l acc : List (Char × Char)), (dkeys (acc ++ l)).Nodup →
      l.foldl dinsert acc = acc ++ l := by
  intro l
  induction l with
  | nil => intro acc _; simp
  | cons kv l ih =>
    intro acc h
    have hmapped : (dkeys (acc ++ kv :: l)) = dkeys acc ++ kv.1 :: dkeys l := by
      simp [dkeys]
    rw [hmapped, List.nodup_append] at h
    have hk : kv.1 ∉ dkeys acc := fun hmem =>
      h.2.2 hmem (List.mem_cons_self kv.1 (dkeys l))
    rw [List.foldl_cons, dinsert_of_not_mem hk, ih (acc ++ [kv])]
    · simp
    · have : (acc ++ [kv]) ++ l = acc ++ kv :: l := by simp
      rw [this, hmapped, List.nodup_append]
      exact h

lemma dictOfPairs_of_nodup {l : List (Char × Char)} (h : (l.map Prod.fst).Nodup) :
    dictOfPairs l = l := by
  have h0 : (dkeys (([] : List (Char × Char)) ++ l)).Nodup := by simpa [dkeys] using h
  simpa using foldl_dinsert_of_nodup l [] h0

lemma map_getD_range (l : List Char) :
    (List.range l.length).map (fun i => l.getD i ' ') = l := by
  induction l with
  | nil => rfl
  | cons c l ih =>
    rw [List.length_cons, List.range_succ_eq_map, List.map_cons, List.map_map]
    have hc : ((fun i => (c :: l).getD i ' ') ∘ Nat.succ) = fun i => l.getD i ' ' := by
      funext i
      simp
    rw [hc, ih]
    rfl

lemma affine_dict_eq (a b : ℕ) {A : List Char} (hA : A.Nodup) :
    affine_dict (a, b) A =
      (List.range A.length).map
        (fun i => (A.getD i ' ', A.getD ((a * i + b) % A.length) ' ')) := by
  unfold affine_dict
  apply dictOfPairs_of_nodup
  have hfst : ((List.range A.length).map
      (fun i => (A.getD i ' ', A.getD ((a * i + b) % A.length) ' '))).map Prod.fst = A := by
    rw [List.map_map]
    exact map_getD_range A
  rw [hfst]
  exact hA

lemma dkeys_affine_dict (a b : ℕ) {A : List Char} (hA : A.Nodup) :
    dkeys (affine_dict (a, b) A) = A := by
  rw [affine_dict_eq a b hA]
  unfold dkeys
  rw [List.map_map]
  exact map_getD_range A

lemma find?_range {q : ℕ → Bool} {n i : ℕ} (hi : i < n) (hq : q i = true)
    (hmin : ∀ j, j < i → q j = false) : (List.range n).find? q = some i := by
  have hsplit : n = i + (n - i) := by omega
  rw [hsplit, List.range_add, List.find?_append]
  have h1 : (List.range i).find? q = none := by
    rw [List.find?_eq_none]
    intro x hx
    rw [List.mem_range] at hx
    simp [hmin x hx]
  rw [h1]
  obtain ⟨k, hk⟩ : ∃ k, n - i = k + 1 := ⟨n - i - 1, by omega⟩
  rw [hk, List.range_succ_eq_map, List.map_cons]
  simp [List.find?_cons, hq]

lemma find?_map_range {f : ℕ → Char × Char} {p : Char × Char → Bool} {n i : ℕ}
    (hi : i < n) (hp : p (f i) = true) (hmin : ∀ j, j < i → p (f j) = false) :
    ((List.range n).map f).find? p = some (f i) := by
  rw [List.find?_map]
  have : (List.range n).find? (p ∘ f) = some i := find?_range hi hp hmin
  rw [this]
  rfl

lemma dlookup_affine_dict (a b : ℕ) {A : List Char} (hA : A.Nodup) {i : ℕ}
    (hi : i < A.length) :
    dlookup (affine_dict (a, b) A) (A.getD i ' ') =
      some (A.getD ((a * i + b) % A.length) ' ') := by
  rw [affine_dict_eq a b hA]
  unfold dlookup
  rw [find?_map_range hi ?_ ?_]
  · rfl
  · simp
  · intro j hj
    have hjn : j < A.length := lt_trans hj hi
    rw [List.getD_eq_getElem A ' ' hjn, List.getD_eq_getElem A ' ' hi]
    simp only [beq_eq_false_iff_ne, ne_eq, hA.getElem_inj_iff]
    omega

lemma min?_spec {l : List ℚ} {m : ℚ} (h : l.min? = some m) :
    m ∈ l ∧ ∀ b ∈ l, m ≤ b := by
  haveI : Std.Antisymm (fun x1 x2 : ℚ => x1 ≤ x2) := ⟨fun h1 h2 => le_antisymm h1 h2⟩
  rw [List.min?_eq_some_iff (fun a => le_refl a) (fun a b => min_choice a b)
    (fun a b c => le_min_iff)] at h
  exact h

lemma generic_crack_spec (c : List Char) (cands : List (List (Char × Char)))
    (f : List ℚ) (A : List Char) (h : cands ≠ []) :
    ∃ g : ℕ, ∃ hg : g < cands.length,
      generic_crack c cands f A = .ok (cands[g], encrypt_substitution c cands[g]) ∧
      (∀ j, ∀ hj : j < cands.length,
        trial_distance c f A cands[g] ≤ trial_distance c f A cands[j]) ∧
      (∀ j, ∀ hj : j < cands.length, j < g →
        trial_distance c f A cands[g] < trial_distance c f A cands[j]) := by
  have hne : cands.map (trial_distance c f A) ≠ [] := fun hnil => h (by simpa using hnil)
  obtain ⟨m, hm⟩ : ∃ m, (cands.map (trial_distance c f A)).min? = some m := by
    cases hmin : (cands.map (trial_distance c f A)).min? with
    | none => exact absurd (List.min?_eq_none_iff.mp hmin) hne
    | some m => exact ⟨m, rfl⟩
  obtain ⟨hmem, hle⟩ := min?_spec hm
  have hguess_lt : (cands.map (trial_distance c f A)).indexOf m <
      (cands.map (trial_distance c f A)).length :=
    List.indexOf_lt_length.mpr hmem
  set guess := (cands.map (trial_distance c f A)).indexOf m with hguessdef
  have hglt : guess < cands.length := by simpa using hguess_lt
  have hgm : trial_distance c f A cands[guess] = m := by
    have h1 := List.getElem_indexOf hguess_lt
    rwa [List.getElem_map] at h1
  refine ⟨guess, hglt, ?_, ?_, ?_⟩
  · simp only [generic_crack]
    rw [hm]
    dsimp only
    rw [← hguessdef, List.getD_eq_getElem cands [] hglt]
  · intro j hj
    have hj2 : j < (cands.map (trial_distance c f A)).length := by simpa using hj
    have hjget : (cands.map (trial_distance c f A))[j] =
        trial_distance c f A cands[j] := List.getElem_map _
    have hjm : m ≤ trial_distance c f A cands[j] := by
      rw [← hjget]
      exact hle _ (List.getElem_mem _)
    rw [hgm]
    exact hjm
  · intro j hj hlt
    have hj2 : j < (cands.map (trial_distance c f A)).length := by simpa using hj
    have hjget : (cands.map (trial_distance c f A))[j] =
        trial_distance c f A cands[j] := List.getElem_map _
    have hjm : m ≤ trial_distance c f A cands[j] := by
      rw [← hjget]
      exact hle _ (List.getElem_mem _)
    have hjfalse : ((cands.map (trial_distance c f A))[j] == m)
        = false := List.not_of_lt_findIdx hlt
    have hne2 : trial_distance c f A cands[j] ≠ m := by
      rw [hjget] at hjfalse
      simpa using hjfalse
    rw [hgm]
    exact lt_of_le_of_ne hjm (fun heq => hne2 heq.symm)

lemma atbash_index {n i : ℕ} (hi : i < n) :
    ((n - 1) * (((n - 1) * i + (n - 1)) % n) + (n - 1)) % n = i := by
  obtain ⟨m, rfl⟩ : ∃ m, n = m + 1 := ⟨n - 1, by omega⟩
  have hi' : i ≤ m := by omega
  simp only [Nat.add_sub_cancel]
  have h1 : m * i + m = (m + 1) * i + (m - i) := by
    have hmul : (m + 1) * i = m * i + i := by ring
    omega
  have h2 : ((m + 1) * i + (m - i)) % (m + 1) = m - i := by
    rw [Nat.mul_add_mod]
    exact Nat.mod_eq_of_lt (by omega)
  rw [h1, h2]
  have h3 : m * (m - i) + m = (m + 1) * (m - i) + i := by
    have hmul : (m + 1) * (m - i) = m * (m - i) + (m - i) := by ring
    omega
  rw [h3, Nat.mul_add_mod]
  exact Nat.mod_eq_of_lt (by omega)

lemma mem_getD {A : List Char} {c : Char} (h : c ∈ A) :
    ∃ i, i < A.length ∧ A.getD i ' ' = c := by
  obtain ⟨n, hn, he⟩ := List.mem_iff_getElem.mp h
  refine ⟨n, hn, ?_⟩
  rw [List.getD_eq_getElem A ' ' hn]
  exact he

lemma esub_not_mem {d : List (Char × Char)} {c : Char} (h : c ∉ dkeys d) :
    esub d c = c := by
  unfold esub
  rw [if_neg]
  intro hc
  exact h ((contains_iff_mem _ _).mp hc)

lemma esub_affine_dict (a b : ℕ) {A : List Char} (hA : A.Nodup) {i : ℕ}
    (hi : i < A.length) :
    esub (affine_dict (a, b) A) (A.getD i ' ') = A.getD ((a * i + b) % A.length) ' ' := by
  unfold esub
  rw [dkeys_affine_dict a b hA]
  have hmem : A.getD i ' ' ∈ A := by
    rw [List.getD_eq_getElem A ' ' hi]
    exact List.getElem_mem hi
  rw [if_pos ((contains_iff_mem _ _).mpr hmem), dlookup_affine_dict a b hA hi]
  rfl

lemma find?_fst_eq {m : List (Char × Char)} (hk : (m.map Prod.fst).Nodup) {c v : Char}
    (hmem : (c, v) ∈ m) : m.find? (fun p => p.1 == c) = some (c, v) := by
  induction m with
  | nil => cases hmem
  | cons p m ih =>
    rw [List.map_cons, List.nodup_cons] at hk
    rcases List.mem_cons.mp hmem with heq | htail
    · rw [← heq, List.find?_cons]
      simp
    · have hcm : c ∈ m.map Prod.fst := by
        simpa using List.mem_map_of_mem Prod.fst htail
      have hp : (p.1 == c) = false := by
        rw [beq_eq_false_iff_ne]
        intro heq
        exact hk.1 (heq ▸ hcm)
      rw [List.find?_cons, hp]
      exact ih hk.2 htail

lemma find?_snd_eq {m : List (Char × Char)} (hv : (m.map Prod.snd).Nodup) {c v : Char}
    (hmem : (c, v) ∈ m) : m.find? (fun p => p.2 == v) = some (c, v) := by
  induction m with
  | nil => cases hmem
  | cons p m ih =>
    rw [List.map_cons, List.nodup_cons] at hv
    rcases List.mem_cons.mp hmem with heq | htail
    · rw [← heq, List.find?_cons]
      simp
    · have hvm : v ∈ m.map Prod.snd := by
        simpa using List.mem_map_of_mem Prod.snd htail
      have hp : (p.2 == v) = false := by
        rw [beq_eq_false_iff_ne]
        intro heq
        exact hv.1 (heq ▸ hvm)
      rw [List.find?_cons, hp]
      exact ih hv.2 htail

lemma dlookup_of_mem {m : List (Char × Char)} (hk : (m.map Prod.fst).Nodup) {c v : Char}
    (hmem : (c, v) ∈ m) : dlookup m c = some v := by
  unfold dlookup
  rw [find?_fst_eq hk hmem]
  rfl

lemma dkeys_swap (m : List (Char × Char)) :
    dkeys (m.map (fun p => (p.2, p.1))) = m.map Prod.snd := by
  unfold dkeys
  rw [List.map_map]
  exact List.map_congr_left (fun a _ => rfl)

lemma dict_swap_of_values_nodup {m : List (Char × Char)}
    (hv : (m.map Prod.snd).Nodup) :
    dictOfPairs (m.map (fun p => (p.2, p.1))) = m.map (fun p => (p.2, p.1)) := by
  apply dictOfPairs_of_nodup
  rw [List.map_map]
  have : (m.map (Prod.fst ∘ fun p => (p.2, p.1))) = m.map Prod.snd :=
    List.map_congr_left (fun a _ => rfl)
  rw [this]
  exact hv

lemma dlookup_swap {m : List (Char × Char)} (hv : (m.map Prod.snd).Nodup) {c v : Char}
    (hmem : (c, v) ∈ m) :
    dlookup (m.map (fun p => (p.2, p.1))) v = some c := by
  unfold dlookup
  rw [List.find?_map]
  have hfind : m.find? ((fun p : Char × Char => p.1 == v) ∘ (fun p => (p.2, p.1)))
      = some (c, v) := find?_snd_eq hv hmem
  rw [hfind]
  rfl

lemma add_mod_eq_zero_iff {n i j : ℕ} (hi : i < n) (hj : j < n) :
    (j + i) % n = 0 ↔ j = (n - i) % n := by
  rcases Nat.eq_zero_or_pos i with h0 | hpos
  · subst h0
    rw [Nat.sub_zero, Nat.mod_self, Nat.add_zero, Nat.mod_eq_of_lt hj]
  · have hr : (n - i) % n = n - i := Nat.mod_eq_of_lt (by omega)
    rw [hr]
    constructor
    · intro h
      obtain ⟨k, hk⟩ := Nat.dvd_iff_mod_eq_zero.mpr h
      rcases k with _ | _ | k
      · simp at hk
        omega
      · rw [Nat.mul_one] at hk
        omega
      · have hexp : n * (k + 1 + 1) = n * k + n + n := by ring
        omega
    · intro h
      subst h
      have hsum : n - i + i = n := by omega
      rw [hsum, Nat.mod_self]

lemma shift_dict_count {i : ℕ} {A : List Char} (hA : A.Nodup) (hi : i < A.length) :
    List.countP (fun kv => kv.2 == A.getD 0 ' ') (shift_dict i A) = 1 := by
  have hn : 0 < A.length := lt_of_le_of_lt (Nat.zero_le i) hi
  unfold shift_dict
  rw [affine_dict_eq 1 i hA, List.countP_map]
  have hj0 : (A.length - i) % A.length < A.length := Nat.mod_lt _ hn
  have hcong : List.countP ((fun kv : Char × Char => kv.2 == A.getD 0 ' ') ∘
      (fun j => (A.getD j ' ', A.getD ((1 * j + i) % A.length) ' ')))
      (List.range A.length) =
      List.countP (fun j => j == (A.length - i) % A.length) (List.range A.length) := by
    apply List.countP_congr
    intro j hj
    rw [List.mem_range] at hj
    have hmod : (1 * j + i) % A.length < A.length := Nat.mod_lt _ hn
    simp only [Function.comp_apply, beq_iff_eq]
    rw [List.getD_eq_getElem A ' ' hmod, List.getD_eq_getElem A ' ' hn,
      hA.getElem_inj_iff, Nat.one_mul]
    exact add_mod_eq_zero_iff hi hj
  rw [hcong]
  have hc : List.countP (fun j => j == (A.length - i) % A.length)
      (List.range A.length) = List.count ((A.length - i) % A.length)
      (List.range A.length) := rfl
  rw [hc]
  exact List.count_eq_one_of_mem (List.nodup_range _) (List.mem_range.mpr hj0)

/-- C1: for every ciphertext, every non-empty candidate list, every target
frequency table and every alphabet, generic_crack returns the pair of the
winning candidate and the re-encryption of the ciphertext under it, where
the winning candidate attains the minimum trial distance to the target
distribution and every candidate occurring earlier in generation order
scores strictly worse (stable argmin: ties are broken by first
occurrence). -/
theorem generic_crack_stable_argmin (ciphertext : List Char)
    (candidates : List (List (Char × Char))) (frequencies : List ℚ)
    (alphabet : List Char) (h : candidates ≠ []) :
    ∃ g : ℕ, ∃ hg : g < candidates.length,
      generic_crack ciphertext candidates frequencies alphabet =
        .ok (candidates[g], encrypt_substitution ciphertext candidates[g]) ∧
      (∀ j, ∀ hj : j < candidates.length,
        trial_distance ciphertext frequencies alphabet candidates[g] ≤
          trial_distance ciphertext frequencies alphabet candidates[j]) ∧
      (∀ j, ∀ hj : j < candidates.length, j < g →
        trial_distance ciphertext frequencies alphabet candidates[g] <
          trial_distance ciphertext frequencies alphabet candidates[j]) :=
  generic_crack_spec ciphertext candidates frequencies alphabet h

/-- Witness for C1 at the singleton candidate list holding the empty
mapping, with empty ciphertext, target and alphabet. -/
theorem generic_crack_stable_argmin_witness :
    ∃ g : ℕ, ∃ hg : g < ([[]] : List (List (Char × Char))).length,
      generic_crack [] [[]] [] [] =
        .ok (([[]] : List (List (Char × Char)))[g],
          encrypt_substitution [] (([[]] : List (List (Char × Char)))[g])) ∧
      (∀ j, ∀ hj : j < ([[]] : List (List (Char × Char))).length,
        trial_distance [] [] [] (([[]] : List (List (Char × Char)))[g]) ≤
          trial_distance [] [] [] (([[]] : List (List (Char × Char)))[j])) ∧
      (∀ j, ∀ hj : j < ([[]] : List (List (Char × Char))).length, j < g →
        trial_distance [] [] [] (([[]] : List (List (Char × Char)))[g]) <
          trial_distance [] [] [] (([[]] : List (List (Char × Char)))[j])) :=
  generic_crack_stable_argmin [] [[]] [] [] (List.cons_ne_nil _ _)

/-- C10: with an empty candidate list generic_crack fails, modelled as the
ValueError that Python's min raises on an empty sequence; the candidate
list of crack_shift is empty exactly when its alphabet is empty; and
crack_shift on the empty alphabet propagates that failure, producing no
(candidate, text) result. -/
theorem generic_crack_empty_candidates (c : List Char) (f : List ℚ) (A : List Char) :
    generic_crack c [] f A = .error .ValueError ∧
    (shift_candidates A = [] ↔ A = []) ∧
    crack_shift c [] f = .error .ValueError := by
  refine ⟨rfl, ?_, rfl⟩
  constructor
  · intro hnil
    have hlen := congrArg List.length hnil
    simp [shift_candidates] at hlen
    exact hlen
  · intro hnil
    subst hnil
    rfl

/-- C2 (code bug): at the two-symbol alphabet AB the candidate list that
crack_affine builds and searches is not the Affine key-space over AB: the
source derives the key pairs from AB but builds every candidate mapping
over the default uppercase alphabet, so both candidates have the 26
uppercase letters as their key set instead of the two symbols of AB. -/
theorem crack_affine_candidates_wrong_alphabet :
    affine_candidates ['A', 'B'] ≠ affine_keyspace_spec ['A', 'B'] ∧
    (affine_candidates ['A', 'B']).map dkeys = [string_uppercase, string_uppercase] ∧
    (affine_keyspace_spec ['A', 'B']).map dkeys = [['A', 'B'], ['A', 'B']] := by
  decide

/-- C4 (counterexample): gcd(2, 4) is not 1, yet affine_dict with key
(2, 0) over the four-letter alphabet ABCD does not fail: it returns a
well-defined mapping, with duplicated values and hence non-injective,
instead of an InvalidKey error.  This refutes the claim that mapping
construction fails exactly when gcd(a, n) is not 1. -/
theorem affine_dict_no_gcd_check :
    Nat.gcd 2 4 ≠ 1 ∧
    affine_dict (2, 0) ['A', 'B', 'C', 'D'] =
      [('A', 'A'), ('B', 'C'), ('C', 'A'), ('D', 'C')] ∧
    ¬ ((affine_dict (2, 0) ['A', 'B', 'C', 'D']).map Prod.snd).Nodup := by
  decide

/-- C4 (amended): affine_dict performs no invertibility check at all: for
every key (a, b) over every duplicate-free alphabet, including keys with
gcd(a, n) ≠ 1, the construction succeeds and the resulting mapping sends
alphabet[i] to alphabet[(a * i + b) mod n]. -/
theorem affine_dict_total_lookup (a b : ℕ) (A : List Char) (hA : A.Nodup)
    (i : ℕ) (hi : i < A.length) :
    dlookup (affine_dict (a, b) A) (A.getD i ' ') =
      some (A.getD ((a * i + b) % A.length) ' ') :=
  dlookup_affine_dict a b hA hi

/-- Witness for the amended C4 at the non-invertible key (2, 0) over
ABCD. -/
theorem affine_dict_total_lookup_witness :
    dlookup (affine_dict (2, 0) ['A', 'B', 'C', 'D'])
        (['A', 'B', 'C', 'D'].getD 1 ' ') =
      some (['A', 'B', 'C', 'D'].getD ((2 * 1 + 0) % ['A', 'B', 'C', 'D'].length) ' ') :=
  affine_dict_total_lookup 2 0 ['A', 'B', 'C', 'D'] (by decide) 1 (by decide)

/-- C5 (counterexample): at the empty input crack_substitution does not
fail with an Unsupported error; it silently returns Python's None. -/
theorem crack_substitution_silent :
    crack_substitution [] [] = .ok none ∧
    crack_substitution [] [] ≠ .error .Unsupported :=
  ⟨rfl, fun h => Except.noConfusion h⟩

/-- C5 (amended): for every input crack_substitution silently returns
nothing (Python's None); no error of any kind is raised. -/
theorem crack_substitution_returns_none (c : List Char) (f : List ℚ) :
    crack_substitution c f = .ok none := rfl

lemma affine_candidates_ne_nil {A : List Char} (h : A ≠ []) :
    affine_candidates A ≠ [] := by
  have hn : 0 < A.length := List.length_pos.mpr h
  have ha : ∃ a, a ∈ (List.range A.length).filter
      (fun i => Nat.gcd i A.length == 1) := by
    rcases Nat.lt_or_ge A.length 2 with h1 | h2
    · have he : A.length = 1 := by omega
      refine ⟨0, ?_⟩
      rw [he]
      decide
    · refine ⟨1, ?_⟩
      rw [List.mem_filter]
      refine ⟨List.mem_range.mpr (by omega), ?_⟩
      simp [Nat.gcd_one_left]
  obtain ⟨a, hain⟩ := ha
  have hkp : (a, 0) ∈ (((List.range A.length).filter
      (fun i => Nat.gcd i A.length == 1)).flatMap
      (fun a => (List.range A.length).map (fun b => (a, b)))) := by
    rw [List.mem_flatMap]
    exact ⟨a, hain, List.mem_map_of_mem _ (List.mem_range.mpr hn)⟩
  have hmem : affine_dict (a, 0) string_uppercase ∈ affine_candidates A :=
    List.mem_map_of_mem _ hkp
  exact List.ne_nil_of_mem hmem

/-- C3 (code bug): crack_affine does not return only the recovered text.
For every non-empty alphabet the call succeeds and yields the full
(mapping, text) pair produced by generic_crack, whose first component is
the winning candidate mapping. -/
theorem crack_affine_returns_pair (c : List Char) (A : List Char) (f : List ℚ)
    (h : A ≠ []) :
    ∃ g : ℕ, ∃ hg : g < (affine_candidates A).length,
      crack_affine c A f =
        .ok ((affine_candidates A)[g],
          encrypt_substitution c ((affine_candidates A)[g])) := by
  obtain ⟨g, hg, heq, -, -⟩ :=
    generic_crack_spec c (affine_candidates A) f string_uppercase
      (affine_candidates_ne_nil h)
  exact ⟨g, hg, heq⟩

/-- Witness for C3 at the one-letter alphabet A with empty ciphertext and
target. -/
theorem crack_affine_returns_pair_witness :
    ∃ g : ℕ, ∃ hg : g < (affine_candidates ['A']).length,
      crack_affine [] ['A'] [] =
        .ok ((affine_candidates ['A'])[g],
          encrypt_substitution [] ((affine_candidates ['A'])[g])) :=
  crack_affine_returns_pair [] ['A'] [] (List.cons_ne_nil _ _)

/-- C6 (counterexample): the mapping sending A to X and B to X is
injective on the keys occurring in the text A (only the key A occurs) and
the text has no non-key symbol, yet the round trip fails: encryption sends
A to X, dict inversion keeps only the later entry X to B, and decryption
returns B.  Injectivity over the symbols of the text alone is therefore
not sufficient for the round trip. -/
theorem decrypt_encrypt_roundtrip_counterexample :
    (∀ p ∈ [('A', 'X'), ('B', 'X')], ∀ q ∈ [('A', 'X'), ('B', 'X')],
      p.1 ∈ ['A'] → q.1 ∈ ['A'] → p.2 = q.2 → p.1 = q.1) ∧
    (∀ c ∈ ['A'], c ∉ dkeys [('A', 'X'), ('B', 'X')] →
      c ∉ [('A', 'X'), ('B', 'X')].map Prod.snd) ∧
    decrypt_substitution
      (encrypt_substitution ['A'] [('A', 'X'), ('B', 'X')])
      [('A', 'X'), ('B', 'X')] ≠ ['A'] := by
  decide

/-- C6 (amended): the round trip holds when the mapping is a Python dict
(distinct keys) that is injective on its entire key set, not merely on the
keys occurring in the text, and no symbol of the text outside the keys
collides with a value of the mapping; in particular it holds for every
bijective mapping over an alphabet and every text drawn from it. -/
theorem decrypt_encrypt_roundtrip (m : List (Char × Char)) (t : List Char)
    (hk : (m.map Prod.fst).Nodup) (hv : (m.map Prod.snd).Nodup)
    (ht : ∀ c ∈ t, c ∈ dkeys m ∨ c ∉ m.map Prod.snd) :
    decrypt_substitution (encrypt_substitution t m) m = t := by
  unfold decrypt_substitution
  rw [dict_swap_of_values_nodup hv, encrypt_eq_map, encrypt_eq_map, List.map_map]
  have hpt : ∀ c ∈ t, (esub (m.map fun p => (p.2, p.1)) ∘ esub m) c = c := by
    intro c hc
    by_cases hkey : c ∈ dkeys m
    · obtain ⟨p, hp, rfl⟩ := List.mem_map.mp hkey
      have hpm : (p.1, p.2) ∈ m := hp
      have h1 : esub m p.1 = p.2 := by
        unfold esub
        rw [if_pos ((contains_iff_mem _ _).mpr hkey), dlookup_of_mem hk hpm]
        rfl
      have h2 : esub (m.map fun p => (p.2, p.1)) p.2 = p.1 := by
        unfold esub
        rw [dkeys_swap,
          if_pos ((contains_iff_mem _ _).mpr (List.mem_map_of_mem Prod.snd hp)),
          dlookup_swap hv hpm]
        rfl
      rw [Function.comp_apply, h1, h2]
    · have hnv : c ∉ m.map Prod.snd := by
        rcases ht c hc with h | h
        · exact absurd h hkey
        · exact h
      have hnk2 : c ∉ dkeys (m.map fun p => (p.2, p.1)) := by
        rw [dkeys_swap]
        exact hnv
      rw [Function.comp_apply, esub_not_mem hkey, esub_not_mem hnk2]
  calc t.map (esub (m.map fun p => (p.2, p.1)) ∘ esub m)
      = t.map id := List.map_congr_left hpt
    _ = t := List.map_id t

/-- Witness for the amended C6 at the swap mapping AB BA and the text ABC,
whose last symbol is outside the mapping. -/
theorem decrypt_encrypt_roundtrip_witness :
    decrypt_substitution
      (encrypt_substitution ['A', 'B', 'C'] [('A', 'B'), ('B', 'A')])
      [('A', 'B'), ('B', 'A')] = ['A', 'B', 'C'] :=
  decrypt_encrypt_roundtrip [('A', 'B'), ('B', 'A')] ['A', 'B', 'C']
    (by decide) (by decide) (by decide)

/-- C8: encrypt_substitution preserves text length and operates strictly
position by position: at every index, a symbol that is a key of the
mapping is replaced by the mapping's value for it, and every other symbol
(punctuation, whitespace, any non-alphabet symbol) passes through
unchanged at its original position. -/
theorem encrypt_substitution_pointwise (t : List Char) (m : List (Char × Char)) :
    (encrypt_substitution t m).length = t.length ∧
    ∀ (i : ℕ) (c : Char), t[i]? = some c →
      ((c ∈ dkeys m →
        ∃ v, dlookup m c = some v ∧ (encrypt_substitution t m)[i]? = some v) ∧
       (c ∉ dkeys m → (encrypt_substitution t m)[i]? = some c)) := by
  constructor
  · rw [encrypt_eq_map]
    exact List.length_map t _
  · intro i c hic
    have hgt : (encrypt_substitution t m)[i]? = some (esub m c) := by
      rw [encrypt_eq_map, List.getElem?_map, hic]
      rfl
    constructor
    · intro hkey
      obtain ⟨p, hfound⟩ : ∃ p, m.find? (fun q => q.1 == c) = some p := by
        cases hf : m.find? (fun q => q.1 == c) with
        | some p => exact ⟨p, rfl⟩
        | none =>
          exfalso
          obtain ⟨q, hq, hqc⟩ := List.mem_map.mp hkey
          have := List.find?_eq_none.mp hf q hq
          simp [hqc] at this
      refine ⟨p.2, ?_, ?_⟩
      · unfold dlookup
        rw [hfound]
        rfl
      · rw [hgt]
        unfold esub
        rw [if_pos ((contains_iff_mem _ _).mpr hkey)]
        unfold dlookup
        rw [hfound]
        rfl
    · intro hnk
      rw [hgt, esub_not_mem hnk]

/-- Witness for C8 at the text consisting of the letter A followed by an
exclamation mark, under the shift-by-3 mapping over the uppercase
alphabet: the letter is replaced by its mapped value and the punctuation
passes through. -/
theorem encrypt_substitution_pointwise_witness :
    ∃ v, dlookup (shift_dict 3 string_uppercase) 'A' = some v ∧
      (encrypt_substitution ['A', '!'] (shift_dict 3 string_uppercase))[0]? = some v ∧
      (encrypt_substitution ['A', '!'] (shift_dict 3 string_uppercase))[1]? = some '!' := by
  obtain ⟨-, hp⟩ := encrypt_substitution_pointwise ['A', '!'] (shift_dict 3 string_uppercase)
  obtain ⟨hkeycase, -⟩ := hp 0 'A' (by decide)
  obtain ⟨v, hv, hov⟩ := hkeycase (by decide)
  obtain ⟨-, hpass⟩ := hp 1 '!' (by decide)
  exact ⟨v, hv, hov, hpass (by decide)⟩

/-- C9: the Atbash mapping over an alphabet of length n is the affine
mapping with a = b = n - 1 (alphabet reversal), and it is self-inverse:
encrypting twice with it restores every text (alphabet symbols come back
after the double reversal, and symbols outside the alphabet pass through
unchanged both times). -/
theorem atbash_self_inverse (A : List Char) (hA : A.Nodup) :
    atbash_dict A = affine_dict (A.length - 1, A.length - 1) A ∧
    ∀ t : List Char,
      encrypt_substitution (encrypt_substitution t (atbash_dict A)) (atbash_dict A)
        = t := by
  refine ⟨rfl, ?_⟩
  intro t
  rw [encrypt_eq_map, encrypt_eq_map, List.map_map]
  have hfix : ∀ c, (esub (atbash_dict A) ∘ esub (atbash_dict A)) c = c := by
    intro c
    by_cases hc : c ∈ A
    · obtain ⟨i, hi, rfl⟩ := mem_getD hc
      have hn : 0 < A.length := lt_of_le_of_lt (Nat.zero_le i) hi
      have h1 : esub (atbash_dict A) (A.getD i ' ') =
          A.getD (((A.length - 1) * i + (A.length - 1)) % A.length) ' ' :=
        esub_affine_dict _ _ hA hi
      have hmod : ((A.length - 1) * i + (A.length - 1)) % A.length < A.length :=
        Nat.mod_lt _ hn
      have h2 : esub (atbash_dict A)
          (A.getD (((A.length - 1) * i + (A.length - 1)) % A.length) ' ') =
          A.getD (((A.length - 1) *
            (((A.length - 1) * i + (A.length - 1)) % A.length) +
            (A.length - 1)) % A.length) ' ' :=
        esub_affine_dict _ _ hA hmod
      rw [Function.comp_apply, h1, h2, atbash_index hi]
    · have hnk : c ∉ dkeys (atbash_dict A) := by
        rw [show atbash_dict A = affine_dict (A.length - 1, A.length - 1) A from rfl,
          dkeys_affine_dict _ _ hA]
        exact hc
      rw [Function.comp_apply, esub_not_mem hnk, esub_not_mem hnk]
  calc t.map (esub (atbash_dict A) ∘ esub (atbash_dict A))
      = t.map id := List.map_congr_left (fun c _ => hfix c)
    _ = t := List.map_id t

/-- Witness for C9 over the uppercase alphabet on a short text containing
a non-alphabet symbol. -/
theorem atbash_self_inverse_witness :
    encrypt_substitution
      (encrypt_substitution ['H', 'I', '!'] (atbash_dict string_uppercase))
      (atbash_dict string_uppercase) = ['H', 'I', '!'] :=
  (atbash_self_inverse string_uppercase (by decide)).2 ['H', 'I', '!']

/-- C7: crack_shift recovers the shift by searching the winning mapping,
stored as key-value pairs, for a key sent to alphabet[0], and reports that
key's alphabet index as the shift; the lookup fails with the StopIteration
that .next() raises on an exhausted generator (the KeyNotFound-style
error) exactly when no key of the winning mapping maps to alphabet[0];
and for every non-empty duplicate-free alphabet that failure is
unreachable, because every candidate produced by the shift key-space
generator maps exactly one symbol to alphabet[0]. -/
theorem crack_shift_shift_recovery (c : List Char) (f : List ℚ) (A : List Char)
    (hA : A.Nodup) (hne : A ≠ []) :
    (∀ i, i < A.length →
      List.countP (fun kv => kv.2 == A.getD 0 ' ') (shift_dict i A) = 1) ∧
    (∀ d p, generic_crack c (shift_candidates A) f A = .ok (d, p) →
      (∀ kv, d.find? (fun kv => kv.2 == A.getD 0 ' ') = some kv →
        crack_shift c A f = .ok (A.indexOf kv.1, p)) ∧
      (crack_shift c A f = .error .StopIteration ↔
        d.find? (fun kv => kv.2 == A.getD 0 ' ') = none)) ∧
    crack_shift c A f ≠ .error .StopIteration := by
  refine ⟨fun i hi => shift_dict_count hA hi, ?_, ?_⟩
  · intro d p hok
    constructor
    · intro kv hkv
      unfold crack_shift
      rw [hok]
      dsimp only
      rw [hkv]
    · unfold crack_shift
      rw [hok]
      dsimp only
      cases hfind : d.find? (fun kv => kv.2 == A.getD 0 ' ') with
      | none => simp
      | some kv => simp
  · have hcne : shift_candidates A ≠ [] := by
      intro hnil
      have hlen := congrArg List.length hnil
      simp [shift_candidates] at hlen
      exact hne hlen
    obtain ⟨g, hg, heq, -, -⟩ := generic_crack_spec c (shift_candidates A) f A hcne
    have hglen : g < A.length := by
      have hsl : (shift_candidates A).length = A.length := by simp [shift_candidates]
      omega
    have hdg : (shift_candidates A)[g] = shift_dict g A := by
      unfold shift_candidates
      rw [List.getElem_map]
      congr 1
      exact List.getElem_range _ _
    have hcount := shift_dict_count hA hglen
    have hex : ∃ kv ∈ shift_dict g A,
        (fun kv : Char × Char => kv.2 == A.getD 0 ' ') kv = true := by
      apply List.countP_pos_iff.mp
      rw [hcount]
      omega
    obtain ⟨kv0, hkv0mem, hkv0p⟩ := hex
    obtain ⟨kv, hkv⟩ : ∃ kv,
        (shift_dict g A).find? (fun kv => kv.2 == A.getD 0 ' ') = some kv := by
      cases hf : (shift_dict g A).find? (fun kv => kv.2 == A.getD 0 ' ') with
      | some kv => exact ⟨kv, rfl⟩
      | none =>
        exact absurd hkv0p (by simpa using List.find?_eq_none.mp hf kv0 hkv0mem)
    unfold crack_shift
    rw [heq]
    dsimp only
    rw [hdg, hkv]
    simp

/-- Witness for C7 at the two-letter alphabet AB with empty ciphertext and
empty target distribution. -/
theorem crack_shift_shift_recovery_witness :
    (∀ i, i < (['A', 'B'] : List Char).length →
      List.countP (fun kv => kv.2 == (['A', 'B'] : List Char).getD 0 ' ')
        (shift_dict i ['A', 'B']) = 1) ∧
    (∀ d p, generic_crack [] (shift_candidates ['A', 'B']) [] ['A', 'B'] = .ok (d, p) →
      (∀ kv, d.find? (fun kv => kv.2 == (['A', 'B'] : List Char).getD 0 ' ') = some kv →
        crack_shift [] ['A', 'B'] [] = .ok ((['A', 'B'] : List Char).indexOf kv.1, p)) ∧
      (crack_shift [] ['A', 'B'] [] = .error .StopIteration ↔
        d.find? (fun kv => kv.2 == (['A', 'B'] : List Char).getD 0 ' ') = none)) ∧
    crack_shift [] ['A', 'B'] [] ≠ .error .StopIteration :=
  crack_shift_shift_recovery [] [] ['A', 'B'] (by decide) (List.cons_ne_nil _ _)

end Mono
